import Mathlib

/-!
Verification development for the `serde-validate` repository.

The repository has two crates:

* `serde-validate` (src/serde-validate/src/lib.rs): the `Validate` trait with
  `validate` and the provided method `validated`.
* `serde-validate-macro` (src/serde-validate-macro/src/lib.rs): the
  `validate_deser` attribute macro.  For an annotated struct or enum it emits
  (1) the original declaration unchanged, (2) a helper ("staging") declaration
  with the same structural shape deriving `serde::Deserialize`, and (3) a
  `Deserialize` impl for the original type that deserializes the helper,
  converts it field-by-field / arm-by-arm into the real type, and runs
  `validated`, mapping a validation error through `serde::de::Error::custom`.

We embed the macro at two levels:

* a value-level model: structural values (`StructVal`, `ShapeVal`) together
  with the conversion functions generated by `init_from_named`,
  `init_from_unnamed`, `build_unit_struct` and `init_from_enum`, a model of the
  external decode capability (serde's derived `Deserialize` for the helper
  type), and the body of the generated `deserialize` function;
* a declaration-level model: generic parameters, where-clause predicates, the
  helper name scheme, the emitted match arms and the overall output of
  `validate_deser`.
-/

namespace SerdeValidate

/-! ## Field values and shapes -/

/-- Runtime payload of a struct or of one enum variant: named fields (a record
with field identifiers), positional fields (a tuple), or a unit payload.
`α` is the type of a single field value. -/
inductive StructVal (α : Type) where
  | named (fields : List (String × α))
  | unnamed (vals : List α)
  | unitS
deriving DecidableEq

/-- A runtime value of an annotated type: either a struct payload or one
variant of an enum, tagged by the variant identifier. -/
inductive ShapeVal (α : Type) where
  | struct (s : StructVal α)
  | enumV (variant : String) (payload : StructVal α)
deriving DecidableEq

/-- Declared shape of the fields of a struct or of one enum variant, as read
off the `syn::Fields` of the annotated declaration: the list of named field
identifiers, the arity of a tuple, or a unit shape. -/
inductive FieldsDecl where
  | named (names : List String)
  | unnamed (arity : Nat)
  | unitD
deriving DecidableEq

/-- Declared shape of the whole annotated type: a struct with fields, or an
enum with its ordered list of variants (identifier plus field shape). -/
inductive ShapeDecl where
  | structD (fields : FieldsDecl)
  | enumD (variants : List (String × FieldsDecl))
deriving DecidableEq

/-! ## Generic list helpers used by the embedding -/

/-- Fallible traversal: applies `f` to each element, succeeding only when
every application succeeds (the shape of the iterator + `quote!` expansions in
the macro, made explicit as a total function). -/
def mapOpt (f : β → Option γ) : List β → Option (List γ)
  | [] => some []
  | b :: bs =>
    match f b with
    | none => none
    | some c => (mapOpt f bs).map (fun cs => c :: cs)

/-- Access to a named field of a record value: first field with the given
identifier (Rust field access `helper.name`; field identifiers of a valid
declaration are distinct). -/
def lookupField (l : List (String × α)) (n : String) : Option α :=
  match l with
  | [] => none
  | (m, v) :: rest => if m = n then some v else lookupField rest n

/-- First declared variant with the given identifier (the semantics of the
generated `match` on the helper enum, whose arms are tried in declaration
order). -/
def findVariant (variants : List (String × FieldsDecl)) (n : String) :
    Option FieldsDecl :=
  match variants with
  | [] => none
  | (m, f) :: rest => if m = n then some f else findVariant rest n

/-! ## The conversion generated by the macro (value semantics)

`init_from_named` (lib.rs 149-160) emits `Real { a: helper.a, b: helper.b }`
over the declared fields in declared order; `init_from_unnamed` (186-195)
emits `Real(helper.0, ..., helper.(n-1))`; `build_unit_struct` (197-210) emits
the bare constructor `Real`, never touching the helper; `init_from_enum`
(241-255) emits a `match` with one arm per declared variant. -/

/-- Value semantics of the expression emitted by `init_from_named`: for each
declared field identifier, read that field of the helper value. -/
def init_from_named_val (names : List String) (helper : List (String × α)) :
    Option (List (String × α)) :=
  mapOpt (fun n => (lookupField helper n).map (fun v => (n, v))) names

/-- Value semantics of the expression emitted by `init_from_unnamed`: read
positions `0, 1, ..., arity-1` of the helper value, in order. -/
def init_from_unnamed_val (arity : Nat) (helper : List α) : Option (List α) :=
  mapOpt (fun i => helper[i]?) (List.range arity)

/-- Conversion of a struct payload according to its declared field shape
(`none` only on payloads that are ill-typed for the declaration, which the
Rust type system rules out).  The unit case ignores the helper, exactly as the
emitted bare-constructor expression does. -/
def convertStruct (f : FieldsDecl) (h : StructVal α) : Option (StructVal α) :=
  match f, h with
  | .named names, .named l => (init_from_named_val names l).map .named
  | .unnamed k, .unnamed vs => (init_from_unnamed_val k vs).map .unnamed
  | .unitD, _ => some .unitS
  | _, _ => none

/-- Value semantics of one arm of the `match` emitted by `init_from_enum`:
the pattern destructures the staging variant payload (named fields bound by
identifier via `init_enum_from_named`, positional fields bound to the
placeholders `value_i` via `init_enum_from_unnamed`, nothing for a unit
variant) and the body rebuilds the real variant from the same bindings. -/
def convertArm (f : FieldsDecl) (payload : StructVal α) :
    Option (StructVal α) :=
  match f, payload with
  | .named names, .named l => (init_from_named_val names l).map .named
  | .unnamed k, .unnamed vs =>
    if vs.length = k then some (.unnamed vs) else none
  | .unitD, .unitS => some .unitS
  | _, _ => none

/-- Value semantics of the whole conversion expression `init_from_helper`
spliced at lib.rs line 107: a direct struct conversion, or the `match` over
the staging enum generated by `init_from_enum`. -/
def convertVal (d : ShapeDecl) (h : ShapeVal α) : Option (ShapeVal α) :=
  match d, h with
  | .structD f, .struct s => (convertStruct f s).map .struct
  | .enumD variants, .enumV vn payload =>
    match findVariant variants vn with
    | some f => (convertArm f payload).map (.enumV vn)
    | none => none
  | _, _ => none

/-! ## The external decode capability and the generated deserialize body -/

/-- The single error type of the generated `deserialize` (`__D::Error`):
either an error produced by the decode capability itself while parsing the
staging value, or an error built by `serde::de::Error::custom` from a
validation failure. -/
inductive DeError where
  | decodeErr (msg : String)
  | custom (msg : String)
deriving DecidableEq

/-- Does a struct payload structurally match a declared field shape?  (Named
fields present with the declared identifiers in declared order, declared tuple
arity, or a unit payload.) -/
def fieldsMatch (f : FieldsDecl) (w : StructVal α) : Bool :=
  match f, w with
  | .named names, .named l => decide (l.map Prod.fst = names)
  | .unnamed k, .unnamed vs => decide (vs.length = k)
  | .unitD, .unitS => true
  | _, _ => false

/-- Modelled from the spec: the external decode capability (serde's derived
`Deserialize` for the staging declaration, not part of this repository).
Given the staging shape and an input, it produces the staging value when the
input structurally matches the shape and a decode error otherwise; an enum is
decoded by looking up the input's variant tag among the declared variants. -/
def decodeWire (d : ShapeDecl) (w : ShapeVal α) : Except DeError (ShapeVal α) :=
  match d, w with
  | .structD f, .struct s =>
    if fieldsMatch f s then .ok w else .error (.decodeErr "invalid input")
  | .enumD variants, .enumV vn payload =>
    match findVariant variants vn with
    | some f =>
      if fieldsMatch f payload then .ok w
      else .error (.decodeErr "invalid input")
    | none => .error (.decodeErr "unknown variant")
  | .structD _, .enumV _ _ => .error (.decodeErr "expected struct")
  | .enumD _, .struct _ => .error (.decodeErr "expected enum")

/-- Modelled from the spec: encoding a value's structural shape.  The wire
model of this development is the structural value itself, so encoding is the
identity embedding of the value into the wire universe. -/
def encode (v : ShapeVal α) : ShapeVal α := v

/-- An implementation of the `Validate` trait
(src/serde-validate/src/lib.rs 94-107): the user-supplied check plus the
`Display` rendering of its error type (required by
`serde::de::Error::custom`). -/
structure ValidateImpl (α : Type) (ε : Type) where
  validate : α → Except ε Unit
  descr : ε → String

/-- The provided method `Validate::validated`
(src/serde-validate/src/lib.rs 104-106): `self.validate().map(|_| self)`. -/
def ValidateImpl.validated (V : ValidateImpl α ε) (self : α) : Except ε α :=
  (V.validate self).map (fun _ => self)

/-- Body of the generated `deserialize` (lib.rs 101-110):
`let helper = Helper::deserialize(deserializer)?;` (a decode failure is
returned unchanged by `?`), `let instance = init_from_helper;` (the pure
conversion; the `none` branch is unreachable for values the decode capability
produces, see `decodeWire_ok_convert`), then
`instance.validated().map_err(serde::de::Error::custom)`. -/
def generatedDeserialize (d : ShapeDecl) (V : ValidateImpl (ShapeVal α) ε)
    (w : ShapeVal α) : Except DeError (ShapeVal α) :=
  match decodeWire d w with
  | .error e => .error e
  | .ok helper =>
    match convertVal d helper with
    | none => .error (.custom "ill-typed conversion")
    | some inst =>
      match V.validated inst with
      | .ok v => .ok v
      | .error e => .error (.custom (V.descr e))

/-! ## Declaration-level model of `validate_deser` -/

/-- One generic parameter of the annotated declaration
(`syn::GenericParam`): a type parameter, a lifetime parameter, or a const
parameter, carried by identifier. -/
inductive GenericParamM where
  | typeParam (name : String)
  | lifetimeParam (name : String)
  | constParam (name : String)
deriving DecidableEq

/-- One where-clause predicate as a token unit: either the extra bound
`T : serde::Deserialize<__de>` generated for a type parameter `T` (the `__de`
lifetime is the one introduced by the emitted impl), or a predicate copied
from the original declaration, carried as its token text. -/
inductive RustPred where
  | deserializeDe (tyName : String)
  | declared (tokens : String)
deriving DecidableEq

/-- The generics of the annotated declaration: ordered parameter list plus the
optional original where clause (an ordered list of predicates). -/
structure GenericsM where
  params : List GenericParamM
  whereClause : Option (List RustPred)
deriving DecidableEq

/-- lib.rs 62-68: `generics.params.iter().filter_map(...)` — one
`#p : serde::Deserialize<'__de>` bound for each type parameter, in parameter
order; lifetime and const parameters contribute nothing. -/
def extra_where_clause (g : GenericsM) : List RustPred :=
  g.params.filterMap (fun p =>
    match p with
    | .typeParam n => some (.deserializeDe n)
    | _ => none)

/-- lib.rs 69-79: the predicate list of the `where` clause emitted on the
generated impl — the original predicates (when a where clause exists),
followed by the extra `Deserialize` bounds. -/
def impl_where_clause (g : GenericsM) : List RustPred :=
  (match g.whereClause with
   | none => []
   | some ps => ps) ++ extra_where_clause g

/-- lib.rs 49: `Ident::new(&format!("__ValidDeserialize{name}"), ...)` — the
staging type identifier. -/
def helper_name (name : String) : String := "__ValidDeserialize" ++ name

/-- lib.rs 289: the placeholder identifier `value_i` bound for position `i` of
a positional variant payload (`Ident::new(&format!("value_{}", i), ...)`). -/
def placeholder_name (i : Nat) : String := "value_" ++ Nat.repr i

/-- A pattern of one arm of the generated `match`: a variant pattern naming
the matched variant and its bound identifiers in order, or a wildcard
(which the generator never emits). -/
inductive PatM where
  | variantPat (name : String) (binders : List String)
  | wildcardPat
deriving DecidableEq

/-- One arm of the `match` emitted by `init_from_enum`: its pattern, the
identifier of the real variant its body constructs, and the identifiers the
body passes to that constructor, in order. -/
structure MatchArmM where
  pat : PatM
  bodyVariant : String
  bodyArgs : List String
deriving DecidableEq

/-- lib.rs 273-284 (`init_enum_from_named`): the arm
`Helper::V { a, b } => Real::V { a, b }` — binders are the declared field
identifiers, and the body reuses exactly those identifiers (`fields_clone`). -/
def init_enum_from_named_arm (variantName : String) (names : List String) :
    MatchArmM :=
  { pat := .variantPat variantName names
    bodyVariant := variantName
    bodyArgs := names }

/-- lib.rs 286-298 (`init_enum_from_unnamed`): the arm
`Helper::V(value_0, ..., value_(k-1)) => Real::V(value_0, ..., value_(k-1))` —
one placeholder per position, the body reusing the same placeholders. -/
def init_enum_from_unnamed_arm (variantName : String) (k : Nat) : MatchArmM :=
  { pat := .variantPat variantName ((List.range k).map placeholder_name)
    bodyVariant := variantName
    bodyArgs := (List.range k).map placeholder_name }

/-- lib.rs 300-304 (`init_enum_from_unit`): `Helper::V => Real::V`. -/
def init_enum_from_unit_arm (variantName : String) : MatchArmM :=
  { pat := .variantPat variantName []
    bodyVariant := variantName
    bodyArgs := [] }

/-- lib.rs 241-255 (`init_from_enum`): the arm list of the generated `match` —
`variants.iter().map(...)`, one arm per declared variant in declaration order,
dispatching on the variant's field kind. -/
def init_from_enum_arms (variants : List (String × FieldsDecl)) :
    List MatchArmM :=
  variants.map (fun v =>
    match v.2 with
    | .named names => init_enum_from_named_arm v.1 names
    | .unnamed k => init_enum_from_unnamed_arm v.1 k
    | .unitD => init_enum_from_unit_arm v.1)

/-- The identifiers an arm of the generated `match` binds for a variant with
the given declared fields: the field identifiers themselves for a named
payload, the placeholders `value_0 .. value_(k-1)` for a positional payload,
nothing for a unit payload. -/
def variant_binders : FieldsDecl → List String
  | .named names => names
  | .unnamed k => (List.range k).map placeholder_name
  | .unitD => []

/-- The identifiers of the type parameters of the declaration, in order
(lifetime and const parameters excluded). -/
def typeParamNames (g : GenericsM) : List String :=
  g.params.filterMap (fun p =>
    match p with
    | .typeParam n => some n
    | _ => none)

/-- The predicates of the original where clause (empty when the declaration
has none). -/
def origPreds (g : GenericsM) : List RustPred :=
  match g.whereClause with
  | none => []
  | some ps => ps

/-- The `syn::Data` of the annotated declaration: struct, enum, or union. -/
inductive DataM where
  | structData (fields : FieldsDecl)
  | enumData (variants : List (String × FieldsDecl))
  | unionData
deriving DecidableEq

/-- The `DeriveInput` of the annotated declaration: identifier, generics and
data. -/
structure DeriveInputM where
  ident : String
  generics : GenericsM
  data : DataM
deriving DecidableEq

/-- lib.rs 223-239 (`enum_def`): the variant list of the staging enum —
each declared variant rebuilt in order with the same identifier and its
fields' tokens spliced verbatim per kind. -/
def enum_def_variants (variants : List (String × FieldsDecl)) :
    List (String × FieldsDecl) :=
  variants.map (fun v =>
    (v.1,
      match v.2 with
      | .named names => .named names
      | .unnamed k => .unnamed k
      | .unitD => .unitD))

/-- Shape of the staging declaration emitted for the given data:
`named_def_full` / `unnamed_def_full` splice the original field tokens
verbatim (lib.rs 138-147 and 177-184), `build_unit_struct` emits a unit
struct (197-210), and `enum_def` rebuilds the variant list (223-239). -/
def helper_def_data : DataM → DataM
  | .structData f => .structData f
  | .enumData vs => .enumData (enum_def_variants vs)
  | .unionData => .unionData

/-- The generation-time failure of `validate_deser`: the
`unimplemented!()` panic at lib.rs 58, carrying the panic's message. -/
inductive GenError where
  | unimplementedPanic (msg : String)
deriving DecidableEq

/-- The tokens emitted by `validate_deser` (lib.rs 95-112), in structured
form: the original declaration re-emitted verbatim (`#input`), the single
staging declaration (its identifier and shape), and the predicate list of the
where clause on the generated impl. -/
structure MacroOutput where
  original : DeriveInputM
  helperIdent : String
  helperData : DataM
  implPreds : List RustPred
deriving DecidableEq

/-- lib.rs 42-115 (`validate_deser`): dispatch on the declaration's data;
struct and enum declarations produce the output tokens, a union hits
`unimplemented!()` and aborts generation with a panic. -/
def validate_deser (input : DeriveInputM) : Except GenError MacroOutput :=
  match input.data with
  | .structData f =>
    .ok { original := input
          helperIdent := helper_name input.ident
          helperData := helper_def_data (.structData f)
          implPreds := impl_where_clause input.generics }
  | .enumData vs =>
    .ok { original := input
          helperIdent := helper_name input.ident
          helperData := helper_def_data (.enumData vs)
          implPreds := impl_where_clause input.generics }
  | .unionData => .error (.unimplementedPanic "not implemented")

/-! ## String helpers: prefix and containment checks, decimal parsing -/

/-- Is the first character list a prefix of the second? -/
def isPre : List Char → List Char → Bool
  | [], _ => true
  | _ :: _, [] => false
  | a :: as, b :: bs => a = b && isPre as bs

/-- Does the haystack contain the needle as a contiguous run? -/
def containsRun (needle : List Char) : List Char → Bool
  | [] => needle.isEmpty
  | c :: rest => isPre needle (c :: rest) || containsRun needle rest

/-- Does the identifier carry the reserved staging prefix? -/
def hasReservedPrefix (s : String) : Bool :=
  isPre "__ValidDeserialize".data s.data

/-- Does a diagnostic message mention the given declaration identifier? -/
def mentionsName (msg name : String) : Bool :=
  containsRun name.data msg.data

/-- Numeric value of a decimal digit character (`0` on non-digits); the left
inverse of `Nat.digitChar` on digits. -/
def charVal (c : Char) : Nat :=
  if c = '0' then 0 else
  if c = '1' then 1 else
  if c = '2' then 2 else
  if c = '3' then 3 else
  if c = '4' then 4 else
  if c = '5' then 5 else
  if c = '6' then 6 else
  if c = '7' then 7 else
  if c = '8' then 8 else
  if c = '9' then 9 else 0

/-- Value of a decimal digit string (most significant first). -/
def parseNum (cs : List Char) : Nat :=
  cs.foldl (fun a c => 10 * a + charVal c) 0

/-- Well-formedness of a declared field shape, as Rust enforces it: named
field identifiers are pairwise distinct. -/
def fieldsWF : FieldsDecl → Bool
  | .named names => decide names.Nodup
  | _ => true

/-- Well-formedness of a declared type shape: every named field list in it is
duplicate-free (Rust additionally makes variant identifiers distinct, which no
proof below needs). -/
def declWF : ShapeDecl → Bool
  | .structD f => fieldsWF f
  | .enumD variants => variants.all (fun v => fieldsWF v.2)

/-- Does a runtime value structurally match a declared type shape?  This is
the typing judgment "`v` is an instance of the annotated type". -/
def shapeMatches (d : ShapeDecl) (v : ShapeVal α) : Bool :=
  match d, v with
  | .structD f, .struct s => fieldsMatch f s
  | .enumD variants, .enumV vn payload =>
    match findVariant variants vn with
    | some f => fieldsMatch f payload
    | none => false
  | .structD _, .enumV _ _ => false
  | .enumD _, .struct _ => false

/-! # Theorems

## Decimal printing: `Nat.repr` is injective -/

theorem charVal_digitChar : ∀ d : Nat, d < 10 → charVal (Nat.digitChar d) = d := by
  decide

theorem toDigitsCore_append (fuel : Nat) :
    ∀ (n : Nat) (ds : List Char), n < fuel →
      Nat.toDigitsCore 10 fuel n ds = Nat.toDigitsCore 10 fuel n [] ++ ds := by
  induction fuel with
  | zero => intro n ds h; omega
  | succ fuel ih =>
    intro n ds hn
    simp only [Nat.toDigitsCore]
    by_cases h10 : n / 10 = 0
    · simp [h10]
    · have hlt : n / 10 < fuel := by
        have h1 : n / 10 < n := Nat.div_lt_self (by omega) (by omega)
        omega
      simp only [h10, if_false]
      rw [ih (n / 10) ((n % 10).digitChar :: ds) hlt,
        ih (n / 10) [(n % 10).digitChar] hlt, List.append_assoc,
        List.singleton_append]

theorem parseNum_append_singleton (xs : List Char) (c : Char) :
    parseNum (xs ++ [c]) = 10 * parseNum xs + charVal c := by
  simp [parseNum, List.foldl_append]

theorem parseNum_toDigitsCore (fuel : Nat) :
    ∀ n : Nat, n < fuel → parseNum (Nat.toDigitsCore 10 fuel n []) = n := by
  induction fuel with
  | zero => intro n h; omega
  | succ fuel ih =>
    intro n hn
    simp only [Nat.toDigitsCore]
    by_cases h10 : n / 10 = 0
    · have hnlt : n < 10 := by omega
      simp only [h10, if_true]
      have : parseNum [Nat.digitChar (n % 10)] = charVal (Nat.digitChar (n % 10)) := by
        simp [parseNum]
      rw [this, charVal_digitChar _ (Nat.mod_lt _ (by omega)), Nat.mod_eq_of_lt hnlt]
    · have hlt : n / 10 < fuel := by
        have h1 : n / 10 < n := Nat.div_lt_self (by omega) (by omega)
        omega
      simp only [h10, if_false]
      rw [toDigitsCore_append fuel (n / 10) _ hlt, parseNum_append_singleton,
        ih (n / 10) hlt, charVal_digitChar _ (Nat.mod_lt _ (by omega))]
      omega

theorem parseNum_toDigits (n : Nat) : parseNum (Nat.toDigits 10 n) = n :=
  parseNum_toDigitsCore (n + 1) n (Nat.lt_succ_self n)

theorem nat_repr_inj {n m : Nat} (h : Nat.repr n = Nat.repr m) : n = m := by
  have hdig : Nat.toDigits 10 n = Nat.toDigits 10 m := by
    have hd := congrArg String.data h
    simpa [Nat.repr, List.asString] using hd
  have := congrArg parseNum hdig
  rwa [parseNum_toDigits, parseNum_toDigits] at this

theorem placeholder_name_inj {i j : Nat}
    (h : placeholder_name i = placeholder_name j) : i = j := by
  have hd := congrArg String.data h
  simp only [placeholder_name, String.data_append] at hd
  have hrepr : (Nat.repr i).data = (Nat.repr j).data :=
    List.append_cancel_left hd
  have : Nat.repr i = Nat.repr j := by
    cases hri : Nat.repr i
    cases hrj : Nat.repr j
    simp_all
  exact nat_repr_inj this

/-! ## Traversal lemmas -/

theorem mapOpt_map (f : γ → Option δ) (g : β → γ) (l : List β) :
    mapOpt f (l.map g) = mapOpt (fun b => f (g b)) l := by
  induction l with
  | nil => rfl
  | cons b bs ih =>
    simp only [List.map_cons, mapOpt]
    rw [ih]

theorem mapOpt_congr {f g : β → Option γ} :
    ∀ {l : List β}, (∀ b ∈ l, f b = g b) → mapOpt f l = mapOpt g l := by
  intro l
  induction l with
  | nil => intro _; rfl
  | cons b bs ih =>
    intro h
    simp only [mapOpt]
    rw [h b (List.mem_cons_self b bs), ih (fun x hx => h x (List.mem_cons_of_mem b hx))]

theorem mapOpt_cons (f : β → Option γ) (b : β) (bs : List β) :
    mapOpt f (b :: bs) =
      (f b).bind (fun c => (mapOpt f bs).map (fun cs => c :: cs)) := by
  cases h : f b <;> simp [mapOpt, h]

theorem mapOpt_isSome {f : β → Option γ} :
    ∀ {l : List β}, (∀ b ∈ l, (f b).isSome) → ∃ cs, mapOpt f l = some cs := by
  intro l
  induction l with
  | nil => intro _; exact ⟨[], rfl⟩
  | cons b bs ih =>
    intro h
    obtain ⟨c, hc⟩ := Option.isSome_iff_exists.mp (h b (List.mem_cons_self b bs))
    obtain ⟨cs, hcs⟩ := ih (fun x hx => h x (List.mem_cons_of_mem b hx))
    exact ⟨c :: cs, by simp [mapOpt, hc, hcs]⟩

/-! ## The conversion is the identity on well-shaped values -/

theorem lookupField_mem {l : List (String × α)} {n : String}
    (h : n ∈ l.map Prod.fst) : ∃ v, lookupField l n = some v := by
  induction l with
  | nil => simp at h
  | cons p rest ih =>
    by_cases hp : p.1 = n
    · exact ⟨p.2, by obtain ⟨m, v⟩ := p; simp_all [lookupField]⟩
    · have : n ∈ rest.map Prod.fst := by
        rcases List.mem_cons.mp h with h1 | h1
        · exact absurd h1.symm hp
        · exact h1
      obtain ⟨v, hv⟩ := ih this
      exact ⟨v, by obtain ⟨m, w⟩ := p; simp_all [lookupField]⟩

theorem init_from_named_val_self (l : List (String × α))
    (hnd : (l.map Prod.fst).Nodup) :
    init_from_named_val (l.map Prod.fst) l = some l := by
  induction l with
  | nil => rfl
  | cons p rest ih =>
    obtain ⟨m, v⟩ := p
    simp only [List.map_cons] at hnd ⊢
    obtain ⟨hm, hrest⟩ := List.nodup_cons.mp hnd
    have hcg : mapOpt
        (fun n => (lookupField ((m, v) :: rest) n).map (fun w => (n, w)))
        (rest.map Prod.fst)
        = mapOpt (fun n => (lookupField rest n).map (fun w => (n, w)))
          (rest.map Prod.fst) := by
      refine mapOpt_congr (fun n hn => ?_)
      have hne : ¬(m = n) := fun hEq => hm (hEq ▸ hn)
      simp [lookupField, hne]
    have hlk : lookupField ((m, v) :: rest) m = some v := by simp [lookupField]
    simp only [init_from_named_val] at ih ⊢
    rw [mapOpt_cons, hlk, Option.map_some', Option.some_bind, hcg, ih hrest]
    rfl

theorem init_from_unnamed_val_self (vs : List α) :
    init_from_unnamed_val vs.length vs = some vs := by
  induction vs with
  | nil => rfl
  | cons a t ih =>
    show mapOpt (fun i => (a :: t)[i]?) (List.range (t.length + 1)) = some (a :: t)
    rw [List.range_succ_eq_map]
    simp only [mapOpt, List.getElem?_cons_zero]
    rw [mapOpt_map]
    have hcg : mapOpt (fun i => (a :: t)[Nat.succ i]?) (List.range t.length)
        = mapOpt (fun i => t[i]?) (List.range t.length) :=
      mapOpt_congr (fun i _ => by simp)
    rw [hcg]
    have : mapOpt (fun i => t[i]?) (List.range t.length) = some t := ih
    rw [this]
    rfl

theorem convertStruct_self (f : FieldsDecl) (w : StructVal α)
    (hm : fieldsMatch f w = true) (hwf : fieldsWF f = true) :
    convertStruct f w = some w := by
  cases f with
  | named names =>
    cases w with
    | named l =>
      have hnames : l.map Prod.fst = names := by simpa [fieldsMatch] using hm
      have hnd : (l.map Prod.fst).Nodup := by
        rw [hnames]; simpa [fieldsWF] using hwf
      simp [convertStruct, ← hnames, init_from_named_val_self l hnd]
    | unnamed vs => simp [fieldsMatch] at hm
    | unitS => simp [fieldsMatch] at hm
  | unnamed k =>
    cases w with
    | named l => simp [fieldsMatch] at hm
    | unnamed vs =>
      have hlen : vs.length = k := by simpa [fieldsMatch] using hm
      simp [convertStruct, ← hlen, init_from_unnamed_val_self vs]
    | unitS => simp [fieldsMatch] at hm
  | unitD =>
    cases w with
    | named l => simp [fieldsMatch] at hm
    | unnamed vs => simp [fieldsMatch] at hm
    | unitS => rfl

theorem convertArm_self (f : FieldsDecl) (w : StructVal α)
    (hm : fieldsMatch f w = true) (hwf : fieldsWF f = true) :
    convertArm f w = some w := by
  cases f with
  | named names =>
    cases w with
    | named l =>
      have hnames : l.map Prod.fst = names := by simpa [fieldsMatch] using hm
      have hnd : (l.map Prod.fst).Nodup := by
        rw [hnames]; simpa [fieldsWF] using hwf
      simp [convertArm, ← hnames, init_from_named_val_self l hnd]
    | unnamed vs => simp [fieldsMatch] at hm
    | unitS => simp [fieldsMatch] at hm
  | unnamed k =>
    cases w with
    | named l => simp [fieldsMatch] at hm
    | unnamed vs =>
      have hlen : vs.length = k := by simpa [fieldsMatch] using hm
      simp [convertArm, hlen]
    | unitS => simp [fieldsMatch] at hm
  | unitD =>
    cases w with
    | named l => simp [fieldsMatch] at hm
    | unnamed vs => simp [fieldsMatch] at hm
    | unitS => rfl

theorem findVariant_mem {variants : List (String × FieldsDecl)} {n : String}
    {f : FieldsDecl} (h : findVariant variants n = some f) : (n, f) ∈ variants := by
  induction variants with
  | nil => simp [findVariant] at h
  | cons p rest ih =>
    obtain ⟨m, g⟩ := p
    by_cases hm : m = n
    · subst hm
      simp [findVariant] at h
      subst h
      exact List.mem_cons_self _ _
    · simp only [findVariant, if_neg hm] at h
      exact List.mem_cons_of_mem _ (ih h)

theorem convertVal_self (d : ShapeDecl) (v : ShapeVal α)
    (hwf : declWF d = true) (hm : shapeMatches d v = true) :
    convertVal d v = some v := by
  cases d with
  | structD f =>
    cases v with
    | struct s =>
      have : fieldsMatch f s = true := by simpa [shapeMatches] using hm
      simp [convertVal, convertStruct_self f s this (by simpa [declWF] using hwf)]
    | enumV vn payload => simp [shapeMatches] at hm
  | enumD variants =>
    cases v with
    | struct s => simp [shapeMatches] at hm
    | enumV vn payload =>
      simp only [shapeMatches] at hm
      cases hfind : findVariant variants vn with
      | none => rw [hfind] at hm; simp at hm
      | some f =>
        rw [hfind] at hm
        have hall : variants.all (fun v => fieldsWF v.2) = true := by
          simpa [declWF] using hwf
        have hmem := findVariant_mem hfind
        have hfwf : fieldsWF f = true := by
          have := List.all_eq_true.mp hall _ hmem
          simpa using this
        simp [convertVal, hfind, convertArm_self f payload hm hfwf]

/-! ## Decode lemmas -/

theorem decodeWire_of_matches (d : ShapeDecl) (v : ShapeVal α)
    (hm : shapeMatches d v = true) : decodeWire d v = .ok v := by
  cases d with
  | structD f =>
    cases v with
    | struct s =>
      have : fieldsMatch f s = true := by simpa [shapeMatches] using hm
      simp [decodeWire, this]
    | enumV vn payload => simp [shapeMatches] at hm
  | enumD variants =>
    cases v with
    | struct s => simp [shapeMatches] at hm
    | enumV vn payload =>
      simp only [shapeMatches] at hm
      cases hfind : findVariant variants vn with
      | none => rw [hfind] at hm; simp at hm
      | some f =>
        rw [hfind] at hm
        have hm2 : fieldsMatch f payload = true := hm
        simp [decodeWire, hfind, hm2]

theorem convertStruct_of_match (f : FieldsDecl) (s : StructVal α)
    (hm : fieldsMatch f s = true) : ∃ t, convertStruct f s = some t := by
  cases f with
  | named names =>
    cases s with
    | named l =>
      have hnames : l.map Prod.fst = names := by simpa [fieldsMatch] using hm
      have hsome : ∀ n ∈ names,
          ((lookupField l n).map (fun w => (n, w))).isSome := by
        intro n hn
        obtain ⟨v, hv⟩ := lookupField_mem (l := l) (n := n) (hnames ▸ hn)
        simp [hv]
      obtain ⟨cs, hcs⟩ := mapOpt_isSome hsome
      exact ⟨.named cs, by simp [convertStruct, init_from_named_val, hcs]⟩
    | unnamed vs => simp [fieldsMatch] at hm
    | unitS => simp [fieldsMatch] at hm
  | unnamed k =>
    cases s with
    | named l => simp [fieldsMatch] at hm
    | unnamed vs =>
      have hlen : vs.length = k := by simpa [fieldsMatch] using hm
      have hsome : ∀ i ∈ List.range k, (vs[i]?).isSome := by
        intro i hi
        have hi2 : i < vs.length := by
          rw [hlen]; exact List.mem_range.mp hi
        simp [List.getElem?_eq_getElem hi2]
      obtain ⟨cs, hcs⟩ := mapOpt_isSome hsome
      exact ⟨.unnamed cs, by simp [convertStruct, init_from_unnamed_val, hcs]⟩
    | unitS => simp [fieldsMatch] at hm
  | unitD => exact ⟨.unitS, rfl⟩

theorem convertArm_of_match (f : FieldsDecl) (s : StructVal α)
    (hm : fieldsMatch f s = true) : ∃ t, convertArm f s = some t := by
  cases f with
  | named names =>
    cases s with
    | named l =>
      have hnames : l.map Prod.fst = names := by simpa [fieldsMatch] using hm
      have hsome : ∀ n ∈ names,
          ((lookupField l n).map (fun w => (n, w))).isSome := by
        intro n hn
        obtain ⟨v, hv⟩ := lookupField_mem (l := l) (n := n) (hnames ▸ hn)
        simp [hv]
      obtain ⟨cs, hcs⟩ := mapOpt_isSome hsome
      exact ⟨.named cs, by simp [convertArm, init_from_named_val, hcs]⟩
    | unnamed vs => simp [fieldsMatch] at hm
    | unitS => simp [fieldsMatch] at hm
  | unnamed k =>
    cases s with
    | named l => simp [fieldsMatch] at hm
    | unnamed vs =>
      have hlen : vs.length = k := by simpa [fieldsMatch] using hm
      exact ⟨.unnamed vs, by simp [convertArm, hlen]⟩
    | unitS => simp [fieldsMatch] at hm
  | unitD =>
    cases s with
    | named l => simp [fieldsMatch] at hm
    | unnamed vs => simp [fieldsMatch] at hm
    | unitS => exact ⟨.unitS, rfl⟩

theorem decodeWire_ok_convert (d : ShapeDecl) (w h : ShapeVal α)
    (hok : decodeWire d w = .ok h) : ∃ v, convertVal d h = some v := by
  cases d with
  | structD f =>
    cases w with
    | struct s =>
      by_cases hm : fieldsMatch f s = true
      · have hh : h = ShapeVal.struct s := by
          simp [decodeWire, hm] at hok
          exact hok.symm
        obtain ⟨t, ht⟩ := convertStruct_of_match f s hm
        exact ⟨.struct t, by simp [hh, convertVal, ht]⟩
      · simp [decodeWire, hm] at hok
    | enumV vn payload => simp [decodeWire] at hok
  | enumD variants =>
    cases w with
    | struct s => simp [decodeWire] at hok
    | enumV vn payload =>
      cases hfind : findVariant variants vn with
      | none => simp [decodeWire, hfind] at hok
      | some f =>
        by_cases hm : fieldsMatch f payload = true
        · have hh : h = ShapeVal.enumV vn payload := by
            simp [decodeWire, hfind, hm] at hok
            exact hok.symm
          obtain ⟨t, ht⟩ := convertArm_of_match f payload hm
          exact ⟨.enumV vn t, by simp [hh, convertVal, hfind, ht]⟩
        · simp [decodeWire, hfind, hm] at hok

/-! ## String prefix lemmas -/

theorem isPre_append (l m : List Char) : isPre l (l ++ m) = true := by
  induction l with
  | nil => rfl
  | cons a as ih => simp [isPre, ih]

theorem string_data_inj {s t : String} (h : s.data = t.data) : s = t := by
  cases s
  cases t
  simp_all

/-! ## Claim theorems -/

/-- C10: for every value `a` of a type implementing `Validate`, `validated a`
returns `Ok b` exactly when `validate a` returns `Ok(())` and `b` is the
instance `a` itself unchanged, and returns `Err e` exactly when `validate a`
returns that same error `e`; `validated` never alters, replaces or normalizes
the value it returns. -/
theorem validated_spec (V : ValidateImpl α ε) (a : α) :
    (∀ b, V.validated a = Except.ok b ↔ (V.validate a = Except.ok () ∧ b = a)) ∧
    (∀ e, V.validated a = Except.error e ↔ V.validate a = Except.error e) := by
  unfold ValidateImpl.validated
  cases h : V.validate a with
  | ok u =>
    cases u
    constructor
    · intro b
      simp [Except.map, eq_comm]
    · intro e
      simp [Except.map]
  | error e0 =>
    constructor
    · intro b
      simp [Except.map]
    · intro e
      simp [Except.map]

/-- C1: the generated deserialize returns `Ok v` exactly when the external
decode of the staging value succeeds with some helper `h` whose conversion is
`v` and the validation of `v` returns `Ok`; a decode failure is propagated
unchanged as the decoder's error; and a validation failure is translated into
the same decoder error channel (`serde::de::Error::custom`) carrying the
validation error's description. -/
theorem generatedDeserialize_spec (d : ShapeDecl)
    (V : ValidateImpl (ShapeVal α) ε) (w : ShapeVal α) :
    (∀ v, generatedDeserialize d V w = .ok v ↔
      ∃ h, decodeWire d w = .ok h ∧ convertVal d h = some v ∧
        V.validate v = .ok ()) ∧
    (∀ e, decodeWire d w = .error e → generatedDeserialize d V w = .error e) ∧
    (∀ h v e, decodeWire d w = .ok h → convertVal d h = some v →
      V.validate v = .error e →
      generatedDeserialize d V w = .error (.custom (V.descr e))) := by
  refine ⟨?_, ?_, ?_⟩
  · intro v
    constructor
    · intro hok
      cases hdec : decodeWire d w with
      | error e =>
        simp only [generatedDeserialize, hdec] at hok
        cases hok
      | ok hval =>
        cases hconv : convertVal d hval with
        | none =>
          simp only [generatedDeserialize, hdec, hconv] at hok
          cases hok
        | some inst =>
          cases hv : V.validate inst with
          | ok u =>
            cases u
            have hval2 : V.validated inst = .ok inst := by
              simp [ValidateImpl.validated, hv, Except.map]
            simp only [generatedDeserialize, hdec, hconv, hval2,
              Except.ok.injEq] at hok
            subst hok
            exact ⟨hval, rfl, hconv, hv⟩
          | error e =>
            have hval2 : V.validated inst = .error e := by
              simp [ValidateImpl.validated, hv, Except.map]
            simp only [generatedDeserialize, hdec, hconv, hval2] at hok
            cases hok
    · rintro ⟨h, hdec, hconv, hv⟩
      have hval2 : V.validated v = .ok v := by
        simp [ValidateImpl.validated, hv, Except.map]
      simp only [generatedDeserialize, hdec, hconv, hval2]
  · intro e hdec
    simp only [generatedDeserialize, hdec]
  · intro h v e hdec hconv hv
    have hval2 : V.validated v = .error e := by
      simp [ValidateImpl.validated, hv, Except.map]
    simp only [generatedDeserialize, hdec, hconv, hval2]

/-- C2: for any instance `v` of the annotated type (any of the four
structural kinds) that passes its validity check, encoding `v`'s structural
shape and running the generated validated decode on that encoding returns a
value structurally equal to `v`. -/
theorem roundtrip_accept (d : ShapeDecl) (V : ValidateImpl (ShapeVal α) ε)
    (v : ShapeVal α) (hwf : declWF d = true) (hm : shapeMatches d v = true)
    (hv : V.validate v = .ok ()) :
    generatedDeserialize d V (encode v) = .ok v := by
  have hval2 : V.validated v = .ok v := by
    simp [ValidateImpl.validated, hv, Except.map]
  simp only [generatedDeserialize, encode, decodeWire_of_matches d v hm,
    convertVal_self d v hwf hm, hval2]

theorem roundtrip_accept_witness :
    generatedDeserialize
        (.enumD [("String", .named ["name"]), ("Int", .unnamed 1), ("Null", .unitD)])
        (ValidateImpl.mk (fun _ : ShapeVal Int => Except.ok ()) (fun e : String => e))
        (encode (.enumV "Int" (.unnamed [5]))) =
      .ok (.enumV "Int" (.unnamed [5])) :=
  roundtrip_accept _ _ _ (by decide) (by decide) rfl

/-- C3: for any instance `v` of the annotated type that fails its validity
check with error `e`, encoding `v`'s structural shape and calling the
generated validated decode on that encoding fails — with the custom decode
error carrying `e`'s description — and never returns `v` or any other
value. -/
theorem roundtrip_reject (d : ShapeDecl) (V : ValidateImpl (ShapeVal α) ε)
    (v : ShapeVal α) (e : ε) (hwf : declWF d = true)
    (hm : shapeMatches d v = true) (hv : V.validate v = .error e) :
    generatedDeserialize d V (encode v) = .error (.custom (V.descr e)) ∧
    ∀ u, generatedDeserialize d V (encode v) ≠ .ok u := by
  have hmain : generatedDeserialize d V (encode v) = .error (.custom (V.descr e)) := by
    have hval2 : V.validated v = .error e := by
      simp [ValidateImpl.validated, hv, Except.map]
    simp only [generatedDeserialize, encode, decodeWire_of_matches d v hm,
      convertVal_self d v hwf hm, hval2]
  exact ⟨hmain, fun u hu => by rw [hmain] at hu; cases hu⟩

theorem roundtrip_reject_witness :
    generatedDeserialize (.structD (.named ["name", "id"]))
        (ValidateImpl.mk
          (fun _ : ShapeVal Int => Except.error "id must be non-negative")
          (fun e : String => e))
        (encode (.struct (.named [("name", 7), ("id", -1)]))) =
      .error (.custom "id must be non-negative") :=
  (roundtrip_reject _ _ _ "id must be non-negative"
    (by decide) (by decide) rfl).1

/-- C4: for a positional-record type with `n` fields, the synthesized
conversion maps staging index `i` unconditionally to real position `i` (one
binding per declared field, no gaps): converting the staging tuple
`[x0, ..., x(n-1)]` succeeds and yields exactly that tuple, so field `i` of
the result equals `xi` for every `i`. -/
theorem positional_bijection (vs : List α) (n : Nat) (h : vs.length = n) :
    init_from_unnamed_val n vs = some vs ∧
    ∀ i : Nat, (init_from_unnamed_val n vs).bind (fun ws => ws[i]?) = vs[i]? := by
  subst h
  refine ⟨init_from_unnamed_val_self vs, fun i => ?_⟩
  rw [init_from_unnamed_val_self vs]
  rfl

/-- C5: the conversion `match` synthesized for an enum has exactly one arm
per declared variant, in declaration order, and no default/catch-all arm;
each arm matches the staging variant by its exact name and reconstructs the
real variant of the same name from the same destructured binders; and for a
positional variant payload the generated placeholder names are pairwise
distinct within the arm. -/
theorem enum_arms_spec (variants : List (String × FieldsDecl)) :
    (init_from_enum_arms variants).length = variants.length ∧
    (∀ (i : Nat) (vn : String) (f : FieldsDecl), variants[i]? = some (vn, f) →
      ∃ arm : MatchArmM, (init_from_enum_arms variants)[i]? = some arm ∧
        arm.pat = PatM.variantPat vn (variant_binders f) ∧
        arm.pat ≠ PatM.wildcardPat ∧
        arm.bodyVariant = vn ∧
        arm.bodyArgs = variant_binders f ∧
        (∀ k, f = FieldsDecl.unnamed k → (variant_binders f).Nodup)) := by
  constructor
  · simp [init_from_enum_arms]
  · intro i vn f hget
    cases f with
    | named names =>
      refine ⟨init_enum_from_named_arm vn names, ?_, rfl,
        by simp [init_enum_from_named_arm], rfl, rfl, ?_⟩
      · simp [init_from_enum_arms, List.getElem?_map, hget]
      · intro k hk
        cases hk
    | unnamed k =>
      refine ⟨init_enum_from_unnamed_arm vn k, ?_, rfl,
        by simp [init_enum_from_unnamed_arm], rfl, rfl, ?_⟩
      · simp [init_from_enum_arms, List.getElem?_map, hget]
      · intro k2 hk
        have hinj : Function.Injective placeholder_name :=
          fun a b hab => placeholder_name_inj hab
        exact (List.nodup_range k).map hinj
    | unitD =>
      refine ⟨init_enum_from_unit_arm vn, ?_, rfl,
        by simp [init_enum_from_unit_arm], rfl, rfl, ?_⟩
      · simp [init_from_enum_arms, List.getElem?_map, hget]
      · intro k hk
        cases hk

/-- C6 (amended): the bound list emitted on the generated impl is the
original where-clause predicates, in order, followed by exactly one
`Deserialize` bound for each type parameter in parameter order — none for
lifetime or const parameters — concatenated as lists without deduplication. -/
theorem impl_where_clause_bounds (g : GenericsM) :
    impl_where_clause g =
      origPreds g ++ (typeParamNames g).map RustPred.deserializeDe := by
  have hextra : extra_where_clause g =
      (typeParamNames g).map RustPred.deserializeDe := by
    unfold extra_where_clause typeParamNames
    induction g.params with
    | nil => rfl
    | cons p rest ih =>
      cases p <;> simp [List.filterMap_cons, ih]
  unfold impl_where_clause origPreds
  rw [hextra]

/-- C6 counterexample: the emitted bound list is not deduplicated — for a
declaration `where T : Clone, T : Clone` with one type parameter `T`, the
emitted predicate list keeps the duplicate, so it is not a deduplicated set as
the claim states. -/
theorem impl_where_clause_not_dedup :
    ¬ (impl_where_clause
        (GenericsM.mk [GenericParamM.typeParam "T"]
          (some [RustPred.declared "T : Clone",
                 RustPred.declared "T : Clone"]))).Nodup := by
  decide

/-- C7 (amended): for a union declaration, generation always fails by
panicking (`unimplemented!()`) with the generic message "not implemented",
aborting code generation — it never silently succeeds. -/
theorem union_aborts (input : DeriveInputM)
    (h : input.data = DataM.unionData) :
    validate_deser input = .error (.unimplementedPanic "not implemented") ∧
    ∀ out, validate_deser input ≠ .ok out := by
  have hmain : validate_deser input =
      .error (.unimplementedPanic "not implemented") := by
    simp [validate_deser, h]
  exact ⟨hmain, fun out hout => by rw [hmain] at hout; cases hout⟩

theorem union_aborts_witness :
    validate_deser
        (DeriveInputM.mk "Bar" (GenericsM.mk [] none) DataM.unionData) =
      .error (.unimplementedPanic "not implemented") :=
  (union_aborts (DeriveInputM.mk "Bar" (GenericsM.mk [] none) DataM.unionData)
    rfl).1

/-- C7 counterexample: the diagnostic of the union failure does not name the
declaration — for the union declaration `Foo`, generation fails with the
generic panic message "not implemented", which does not mention `Foo`. -/
theorem union_panic_no_name :
    validate_deser
        (DeriveInputM.mk "Foo" (GenericsM.mk [] none) DataM.unionData) =
      .error (.unimplementedPanic "not implemented") ∧
    mentionsName "not implemented" "Foo" = false := by
  constructor
  · rfl
  · decide

/-- C8: the staging identifier is derived deterministically from the original
identifier by the fixed scheme `__ValidDeserialize ++ name`; it always
carries the reserved prefix, so it collides with no user-visible identifier
(one not carrying the reserved prefix) in the same scope, and distinct
original identifiers get distinct staging identifiers. -/
theorem helper_name_spec (name userName : String) :
    helper_name name = "__ValidDeserialize" ++ name ∧
    hasReservedPrefix (helper_name name) = true ∧
    (hasReservedPrefix userName = false → helper_name name ≠ userName) ∧
    (∀ other, helper_name name = helper_name other → name = other) := by
  have hpre : hasReservedPrefix (helper_name name) = true := by
    show isPre ("__ValidDeserialize").data (("__ValidDeserialize" ++ name)).data = true
    rw [String.data_append]
    exact isPre_append _ _
  refine ⟨rfl, hpre, ?_, ?_⟩
  · intro huser heq
    rw [heq] at hpre
    rw [hpre] at huser
    cases huser
  · intro other heq
    have hd := congrArg String.data heq
    simp only [helper_name, String.data_append] at hd
    exact string_data_inj (List.append_cancel_left hd)

/-- C9: for every supported annotated declaration, `validate_deser` emits the
original declaration unchanged alongside exactly one staging declaration, and
the staging declaration's fields and variants are the original ones, in
source order, with no reordering and no deduplication. -/
theorem emit_preserves (input : DeriveInputM) (out : MacroOutput)
    (h : validate_deser input = .ok out) :
    out.original = input ∧ out.helperData = input.data := by
  have henum : ∀ vs : List (String × FieldsDecl), enum_def_variants vs = vs := by
    intro vs
    induction vs with
    | nil => rfl
    | cons v rest ih =>
      obtain ⟨n, f⟩ := v
      cases f <;> simp [enum_def_variants] at ih ⊢ <;> exact ih
  cases hd : input.data with
  | structData f =>
    simp only [validate_deser, hd, Except.ok.injEq] at h
    rw [← h]
    exact ⟨rfl, by simp [helper_def_data, hd]⟩
  | enumData vs =>
    simp only [validate_deser, hd, Except.ok.injEq] at h
    rw [← h]
    exact ⟨rfl, by simp [helper_def_data, henum, hd]⟩
  | unionData =>
    simp only [validate_deser, hd] at h
    cases h

theorem emit_preserves_witness :
    (MacroOutput.original
        (MacroOutput.mk
          (DeriveInputM.mk "Point" (GenericsM.mk [] none)
            (DataM.structData (FieldsDecl.named ["x", "y"])))
          "__ValidDeserializePoint"
          (DataM.structData (FieldsDecl.named ["x", "y"])) []) =
      DeriveInputM.mk "Point" (GenericsM.mk [] none)
        (DataM.structData (FieldsDecl.named ["x", "y"]))) ∧
    (MacroOutput.helperData
        (MacroOutput.mk
          (DeriveInputM.mk "Point" (GenericsM.mk [] none)
            (DataM.structData (FieldsDecl.named ["x", "y"])))
          "__ValidDeserializePoint"
          (DataM.structData (FieldsDecl.named ["x", "y"])) []) =
      DataM.structData (FieldsDecl.named ["x", "y"])) :=
  emit_preserves
    (DeriveInputM.mk "Point" (GenericsM.mk [] none)
      (DataM.structData (FieldsDecl.named ["x", "y"])))
    (MacroOutput.mk
      (DeriveInputM.mk "Point" (GenericsM.mk [] none)
        (DataM.structData (FieldsDecl.named ["x", "y"])))
      "__ValidDeserializePoint"
      (DataM.structData (FieldsDecl.named ["x", "y"])) [])
    rfl

theorem positional_bijection_witness :
    init_from_unnamed_val 3 [(10 : Int), 20, 30] = some [(10 : Int), 20, 30] ∧
    ∀ i : Nat, (init_from_unnamed_val 3 [(10 : Int), 20, 30]).bind
      (fun ws => ws[i]?) = [(10 : Int), 20, 30][i]? :=
  positional_bijection [(10 : Int), 20, 30] 3 rfl

end SerdeValidate
